import Mathlib

/-!
Shallow embedding of the receipt total-amount resolver from
`src/Task3/receipt_scanner.py` (`ReceiptScanner.find_total_amount`,
`clean_number_string`, `parse_amt`, `extract_amount_from_line`,
and the total-reconciliation part of `parse_receipt`).

Modelling conventions:
- Python strings are `List Char` (the public API takes `String` and uses `.data`).
- Python `float` values are `ℚ`.  The numeric strings handled by the code are
  short decimal strings, for which Python float arithmetic and printing agree
  with exact rational arithmetic at the magnitudes compared here.
- Python `None` is `Option.none`.
- The regular expressions of the source are embedded as an explicit pattern
  AST (`RE`) with a backtracking matcher that mirrors Python `re` semantics:
  leftmost match, greedy quantifiers, ordered backtracking, non-overlapping
  `findall`, single capturing group per pattern, ASCII `\s`/`\w`/`\d` classes.
- `re.IGNORECASE` is modelled by case-insensitive character predicates in the
  patterns of the call sites that pass that flag.
-/

set_option maxHeartbeats 4000000
set_option maxRecDepth 8000

/-- ASCII whitespace as matched by Python `\s` / `str.strip` (space, tab,
newline, carriage return, vertical tab, form feed). -/
def pyIsSpace (c : Char) : Bool :=
  c == ' ' || c == '\t' || c == '\n' || c == '\r' || c == '\x0b' || c == '\x0c'

/-- Line separators recognised by the model of `str.splitlines`. -/
def isNewlineChar (c : Char) : Bool :=
  c == '\n' || c == '\r'

/-- A word character in the sense of the regex `\b` assertion (`\w`). -/
def isWordChar (c : Char) : Bool :=
  c.isAlphanum || c == '_'

/-- Word-character test lifted to an optional boundary character. -/
def isWordB : Option Char → Bool
  | none => false
  | some c => isWordChar c

/-- Value of a digit string, most significant digit first. -/
def natOfDigits (l : List Char) : Nat :=
  l.foldl (fun a c => 10 * a + (c.toNat - 48)) 0

/-- Model of Python `float(s)` restricted to the digits-and-dot strings that
the scanner can produce: `digits`, `digits.digits`, `.digits`, `digits.`.
Everything else (including `""` and `"."`, on which `float` raises
`ValueError`) yields `none`. -/
def pyFloat? (s : List Char) : Option ℚ :=
  match s.dropWhile Char.isDigit with
  | [] =>
    if (s.takeWhile Char.isDigit).isEmpty then none
    else some (natOfDigits (s.takeWhile Char.isDigit) : ℚ)
  | '.' :: fracPart =>
    if fracPart.all Char.isDigit then
      if (s.takeWhile Char.isDigit).isEmpty && fracPart.isEmpty then none
      else some ((natOfDigits (s.takeWhile Char.isDigit) : ℚ) +
        (natOfDigits fracPart : ℚ) / (10 ^ fracPart.length))
    else none
  | _ => none

/-- Split a character list at every separator character, keeping empty
pieces, like Python `str.split(sep)` for a one-character separator. -/
def splitWhen (p : Char → Bool) : List Char → List (List Char)
  | [] => [[]]
  | c :: cs =>
    if p c then [] :: splitWhen p cs
    else
      match splitWhen p cs with
      | [] => [[c]]
      | l :: ls => (c :: l) :: ls

/-- Model of Python `str.strip()`: drop whitespace from both ends. -/
def pyStrip (l : List Char) : List Char :=
  ((l.dropWhile pyIsSpace).reverse.dropWhile pyIsSpace).reverse

/-- Model of Python `str.lower()` (ASCII case folding suffices here). -/
def lineLower (l : List Char) : List Char :=
  l.map Char.toLower

/-- `[n-1, n-2, ..., 0]`: the index sequence of Python
`range(len-1, -1, -1)`. -/
def downFrom : Nat → List Nat
  | 0 => []
  | n + 1 => n :: downFrom n

/-- First `some` produced by `f` along `l` (Python for-loop with
early `return`). -/
def firstSome {α β : Type} (l : List α) (f : α → Option β) : Option β :=
  match l with
  | [] => none
  | x :: xs =>
    match f x with
    | some v => some v
    | none => firstSome xs f

/-- Contiguous-substring test, Python `needle in haystack` for strings. -/
def infixOfB (p l : List Char) : Bool :=
  match l with
  | [] => p.isEmpty
  | _ :: t => p.isPrefixOf l || infixOfB p t

/-- The maximal run of whitespace at the head of `cs` followed by a digit:
the continuation of a Python regex match of `(\d)\s+(\d)` after the first
digit.  Returns the second digit and the rest of the input after it. -/
def spacesThenDigit (cs : List Char) : Option (Char × List Char) :=
  if (cs.takeWhile pyIsSpace).isEmpty then none
  else
    match cs.dropWhile pyIsSpace with
    | [] => none
    | d :: rest => if d.isDigit then some (d, rest) else none

/-- Fuelled scan for the model of `re.sub(r'(\d)\s+(\d)', r'\1\2', s)`: at a
digit followed by at least one whitespace character and another digit, emit
the two digits and continue after the consumed match (Python `re.sub`
consumes non-overlapping matches, so scanning resumes after the second
digit).  Each step consumes at least one character, so fuel equal to the
input length always suffices (`collapseAuxAdequate` among the
theorems below). -/
def collapseAux : Nat → List Char → List Char
  | 0, l => l
  | fuel + 1, l =>
    match l with
    | [] => []
    | c :: cs =>
      if c.isDigit then
        match spacesThenDigit cs with
        | some (d, rest) => c :: d :: collapseAux fuel rest
        | none => c :: collapseAux fuel cs
      else c :: collapseAux fuel cs

/-- Model of `re.sub(r'(\d)\s+(\d)', r'\1\2', s)`. -/
def collapseDigitSpaces (l : List Char) : List Char :=
  collapseAux l.length l

/-- Model of `re.sub(r'[\$£€₹¥]', '', s)`. -/
def removeCurrency (l : List Char) : List Char :=
  l.filter (fun c => !(c == '$' || c == '£' || c == '€' || c == '₹' || c == '¥'))

/-- Model of `re.sub(r'\bRM\b', '', s, flags=re.IGNORECASE)`.  `prev` is the
character immediately before the scan position in the original string (for
the `\b` assertions); after a removed match, scanning resumes after the `M`. -/
def removeRMAux : Option Char → List Char → List Char
  | _, [] => []
  | prev, [c] => [c]
  | prev, r :: m :: rest =>
    if (r.toLower == 'r') && (m.toLower == 'm') && (!isWordB prev) && (!isWordB rest.head?) then
      removeRMAux (some m) rest
    else r :: removeRMAux (some r) (m :: rest)

/-- Whole-string `\bRM\b` removal. -/
def removeRM (l : List Char) : List Char :=
  removeRMAux none l

/-- Model of `s.replace(',', '')`. -/
def removeCommas (l : List Char) : List Char :=
  l.filter (fun c => !(c == ','))

/-- Model of `re.sub(r'[^\d.]', '', s)`. -/
def keepDigitsDots (l : List Char) : List Char :=
  l.filter (fun c => c.isDigit || c == '.')

/-- `clean_number_string` from the source: empty in, empty out; else collapse
digit-splitting whitespace twice, strip currency glyphs, drop `RM` tokens,
drop commas, keep only digits and dots, and strip outer whitespace. -/
def cleanNumberString (s : List Char) : List Char :=
  if s.isEmpty then []
  else pyStrip (keepDigitsDots (removeCommas (removeRM (removeCurrency
    (collapseDigitSpaces (collapseDigitSpaces s))))))

/-- The multiple-decimal-point repair of `parse_amt`: when `split('.')` has
more than two parts, keep `parts[0] + '.' + parts[1]`. -/
def truncDots (c : List Char) : List Char :=
  if 2 < (splitWhen (fun ch => ch == '.') c).length then
    (splitWhen (fun ch => ch == '.') c).getD 0 [] ++
      '.' :: (splitWhen (fun ch => ch == '.') c).getD 1 []
  else c

/-- `parse_amt` from the source: clean, reject empty and lone `"."`, repair
extra decimal points, parse as a float (a failed parse is the `except` path),
and reject values above 100000. -/
def parseAmt (s : List Char) : Option ℚ :=
  if cleanNumberString s = [] ∨ cleanNumberString s = ['.'] then none
  else
    match pyFloat? (truncDots (cleanNumberString s)) with
    | none => none
    | some v => if 100000 < v then none else some v

/-- Pattern AST for the regular expressions appearing in the source.
Alternation is not needed by any of them.  `group` marks the single
capturing group of a pattern. -/
inductive RE : Type where
  | eps : RE
  | pred : (Char → Bool) → RE
  | cat : RE → RE → RE
  | opt : RE → RE
  | star : RE → RE
  | group : RE → RE
  | wb : RE

/-- Backtracking matcher with Python `re` semantics.  A result is
`(previous char, remaining input, capture)`; the result list enumerates all
ways to match a prefix of `inp`, in Python's backtracking priority order
(greedy quantifiers longest-first, later elements backtracked first), so the
head is the match Python commits to.  `prev` is the character just before
`inp` in the overall subject (for `\b`).  `fuel` bounds `star` unfoldings;
each unfolding must consume input, so `inp.length + 1` is always enough. -/
def reMatches : Nat → RE → Option Char → List Char →
    List (Option Char × List Char × Option (List Char))
  | 0, _, _, _ => []
  | _ + 1, RE.eps, prev, inp => [(prev, inp, none)]
  | _ + 1, RE.pred p, _, inp =>
    match inp with
    | [] => []
    | c :: rest => if p c then [(some c, rest, none)] else []
  | _ + 1, RE.wb, prev, inp =>
    if isWordB prev != isWordB inp.head? then [(prev, inp, none)] else []
  | fuel + 1, RE.cat r1 r2, prev, inp =>
    (reMatches fuel r1 prev inp).bind (fun a =>
      (reMatches fuel r2 a.1 a.2.1).map (fun b =>
        (b.1, b.2.1, a.2.2.orElse (fun _ => b.2.2))))
  | fuel + 1, RE.opt r, prev, inp =>
    reMatches fuel r prev inp ++ [(prev, inp, none)]
  | fuel + 1, RE.group r, prev, inp =>
    (reMatches fuel r prev inp).map (fun a =>
      (a.1, a.2.1, some (inp.take (inp.length - a.2.1.length))))
  | fuel + 1, RE.star r, prev, inp =>
    ((reMatches fuel r prev inp).bind (fun a =>
      if a.2.1.length < inp.length then
        (reMatches fuel (RE.star r) a.1 a.2.1).map (fun b =>
          (b.1, b.2.1, a.2.2.orElse (fun _ => b.2.2)))
      else []))
    ++ [(prev, inp, none)]

/-- Structural size of a pattern, used to pick an adequate matcher fuel. -/
def reSize : RE → Nat
  | RE.eps => 1
  | RE.pred _ => 1
  | RE.wb => 1
  | RE.cat r1 r2 => 1 + reSize r1 + reSize r2
  | RE.opt r => 1 + reSize r
  | RE.star r => 1 + reSize r
  | RE.group r => 1 + reSize r

/-- Matcher fuel for pattern `r` on input `inp`.  The recursion depth of
`reMatches` is bounded by the pattern size times the star unfoldings, and a
`star` body must consume input at every unfolding; none of the source's
patterns nests a star inside a star, so this bound is far more than enough. -/
def reFuel (r : RE) (inp : List Char) : Nat :=
  (inp.length + 2) * (reSize r + 2)

/-- Model of `re.findall`: scan for the leftmost match, emit its group
capture (the whole match if the group did not participate, which does not
occur for the patterns here), and continue after the match; a zero-width
match advances one character.  `fuel` bounds the number of emitted matches
plus skipped characters, so `inp.length + 1` is always enough. -/
def findallAux : Nat → RE → Option Char → List Char → List (List Char)
  | 0, _, _, _ => []
  | fuel + 1, r, prev, inp =>
    match (reMatches (reFuel r inp) r prev inp).head? with
    | some (p1, rest, cap) =>
      if rest.length < inp.length then
        cap.getD (inp.take (inp.length - rest.length)) :: findallAux fuel r p1 rest
      else
        match inp with
        | [] => [cap.getD (inp.take (inp.length - rest.length))]
        | c :: cs =>
          cap.getD (inp.take (inp.length - rest.length)) :: findallAux fuel r (some c) cs
    | none =>
      match inp with
      | [] => []
      | c :: cs => findallAux fuel r (some c) cs

/-- All matches of `r` in `s`, Python `re.findall(r, s)`. -/
def refindall (r : RE) (s : List Char) : List (List Char) :=
  findallAux (s.length + 1) r none s

/-- Literal character. -/
def chr (c : Char) : RE := RE.pred (fun x => x == c)

/-- Case-insensitive literal character (for `re.IGNORECASE` call sites);
`c` is given in lowercase. -/
def chrCI (c : Char) : RE := RE.pred (fun x => x.toLower == c)

/-- Case-insensitive literal word. -/
def litCI (s : String) : RE := s.data.foldr (fun c r => RE.cat (chrCI c) r) RE.eps

/-- Character class from an explicit list. -/
def oneOf (cs : List Char) : RE := RE.pred (fun x => cs.contains x)

/-- `\d`. -/
def digitRE : RE := RE.pred Char.isDigit

/-- `\s`. -/
def spaceRE : RE := RE.pred pyIsSpace

/-- `[:\s]`. -/
def colSpaceRE : RE := RE.pred (fun c => c == ':' || pyIsSpace c)

/-- `r+` (greedy). -/
def plusRE (r : RE) : RE := RE.cat r (RE.star r)

/-- Sequencing of a pattern list. -/
def seqRE (rs : List RE) : RE := rs.foldr RE.cat RE.eps

/-- `r{1,3}` (greedy). -/
def rep13 (r : RE) : RE := RE.cat r (RE.opt (RE.cat r (RE.opt r)))

/-- `r{0,2}` (greedy). -/
def rep02 (r : RE) : RE := RE.opt (RE.cat r (RE.opt r))

/-- `(\d+[,.\s]*\d*)`: the amount group shared by most direct patterns. -/
def amtGroup : RE :=
  RE.group (seqRE [plusRE digitRE,
    RE.star (RE.pred (fun c => c == ',' || c == '.' || pyIsSpace c)),
    RE.star digitRE])

/-- `\b(\d+\.\d{2})\b`: the strict two-decimal pattern (last line pattern
and the whole of Strategy 4). -/
def bareDecimalRE : RE :=
  seqRE [RE.wb, RE.group (seqRE [plusRE digitRE, chr '.', digitRE, digitRE]), RE.wb]

/-- The ordered `direct_patterns` list of Strategy 1 (all matched with
`re.IGNORECASE`). -/
def directPatterns : List RE :=
  [ seqRE [litCI "total", RE.star spaceRE, RE.opt (oneOf ['(', '\x7b']),
      RE.star spaceRE, chrCI 'r', chrCI 'm', RE.star spaceRE,
      RE.opt (oneOf [')', '\x7d']), RE.star spaceRE, plusRE colSpaceRE, amtGroup],
    seqRE [litCI "total", RE.star spaceRE, plusRE colSpaceRE,
      RE.opt (oneOf ['$', '£', '€']), RE.star spaceRE, amtGroup],
    seqRE [litCI "total", RE.star spaceRE, litCI "amt", RE.star spaceRE,
      litCI "payable", RE.star spaceRE, plusRE colSpaceRE, amtGroup],
    seqRE [litCI "grand", RE.star spaceRE, litCI "total", RE.star spaceRE,
      plusRE colSpaceRE,
      RE.star (RE.pred (fun c => c == '$' || c == '£' || c == '€' ||
        c.toLower == 'r' || c.toLower == 'm')),
      RE.star spaceRE, amtGroup],
    seqRE [litCI "final", RE.star spaceRE, litCI "total", RE.star spaceRE,
      plusRE colSpaceRE,
      RE.star (RE.pred (fun c => c == '$' || c == '£' || c == '€' ||
        c.toLower == 'r' || c.toLower == 'm')),
      RE.star spaceRE, amtGroup],
    seqRE [litCI "incl", RE.opt (chr '.'), RE.star spaceRE, litCI "gst",
      RE.opt (chr ')'), RE.opt (chr '.'), RE.star spaceRE, amtGroup],
    seqRE [litCI "total", RE.opt (chr '.'), plusRE spaceRE,
      RE.group (seqRE [plusRE digitRE, chr '.', digitRE, digitRE])],
    seqRE [RE.wb, chrCI 'r', chrCI 'm', RE.star spaceRE, amtGroup] ]

/-- The ordered `patterns` list of `extract_amount_from_line` (matched
case-sensitively). -/
def linePatterns : List RE :=
  [ seqRE [oneOf ['$', '£', '€'], RE.star spaceRE,
      RE.group (plusRE (RE.pred (fun c => c.isDigit || c == ',' || c == '.' || pyIsSpace c)))],
    seqRE [RE.wb, chr 'R', chr 'M', RE.star spaceRE,
      RE.group (plusRE (RE.pred (fun c => c.isDigit || c == ',' || c == '.' || pyIsSpace c)))],
    seqRE [colSpaceRE, RE.star spaceRE,
      RE.group (seqRE [plusRE (RE.pred (fun c => c.isDigit || c == ',')),
        chr '.', digitRE, digitRE]), RE.wb],
    seqRE [RE.wb,
      RE.group (seqRE [rep13 digitRE,
        RE.star (seqRE [chr ',', digitRE, digitRE, digitRE]),
        chr '.', digitRE, digitRE]), RE.wb],
    bareDecimalRE ]

/-- The `total_keywords` list of Strategy 2, in source order. -/
def totalKeywords : List (List Char) :=
  ["grand total", "final total", "total amount", "amount payable",
   "amount due", "balance due", "net total", "total due",
   "total payable", "totalamtpayable", "total amt",
   "total rounded", "total incl", "total (rm", "total \x7brm",
   "jotal", "t0tal", "tota1", "totai",
   "total:", "total.",
   "total"].map String.data

/-- The `skip_keywords` list of Strategy 2. -/
def skipKeywords : List (List Char) :=
  ["subtotal", "sub total", "sub-total", "item total",
   "before tax", "pretax", "qty total"].map String.data

/-- The `exclude_line_keywords` list of Strategy 2. -/
def excludeLineKeywords : List (List Char) :=
  ["change", "cash tendered", "credit", "debit", "visa", "master",
   "card", "tender", "gst summary", "tax summary"].map String.data

/-- The skip list of Strategy 3: `skip_keywords + ['change', 'cash',
'gst summary']`. -/
def phase3SkipKeywords : List (List Char) :=
  skipKeywords ++ (["change", "cash", "gst summary"].map String.data)

/-- `any(k in low for k in kws)`. -/
def containsKeyword (kws : List (List Char)) (low : List Char) : Bool :=
  kws.any (fun k => infixOfB k low)

/-- The `amounts` list of `extract_amount_from_line`: every match of every
line pattern whose parsed value lies in `[0.01, 50000]`, in pattern order
then match order. -/
def lineAmounts (line : List Char) : List ℚ :=
  linePatterns.bind (fun pat =>
    (refindall pat line).filterMap (fun m =>
      (parseAmt m).bind (fun amt =>
        if 1/100 ≤ amt ∧ amt ≤ 50000 then some amt else none)))

/-- `extract_amount_from_line` from the source: the largest collected amount
(Python `max(amounts)`), or `none` if none qualified. -/
def extractAmountFromLine (line : List Char) : Option ℚ :=
  match lineAmounts line with
  | [] => none
  | a :: rest => some (rest.foldl max a)

/-- The `lines` preprocessing of `find_total_amount`:
`[ln.strip() for ln in text.splitlines() if ln.strip()]`.  (Python
`splitlines` emits no empty piece for a trailing newline and treats `\r\n`
as one separator; the model may emit extra empty pieces there, which the
non-empty filter discards, so the resulting line lists agree.) -/
def linesOf (cs : List Char) : List (List Char) :=
  ((splitWhen isNewlineChar cs).map pyStrip).filter (fun l => !l.isEmpty)

/-- Strategy 1 of `find_total_amount`: try each direct pattern in order; for
each, walk its matches last-to-first and return the first cleaned-and-parsed
value in `[0.01, 50000]`. -/
def phase1 (cs : List Char) : Option ℚ :=
  firstSome directPatterns (fun pat =>
    firstSome (refindall pat cs).reverse (fun m =>
      match parseAmt m with
      | some amt => if 1/100 ≤ amt ∧ amt ≤ 50000 then some amt else none
      | none => none))

/-- The body of Strategy 2's bottom-to-top line loop at index `idx`: skip a
line with skip/exclude keywords; on a total-keyword line without the
substring `"sub"`, return the line's amount, falling back to the amount of
the immediately following line (to which no skip/exclude filter is
applied). -/
def phase2Line (lines : List (List Char)) (idx : Nat) : Option ℚ :=
  if containsKeyword skipKeywords (lineLower (lines.getD idx [])) then none
  else if containsKeyword excludeLineKeywords (lineLower (lines.getD idx [])) then none
  else if containsKeyword totalKeywords (lineLower (lines.getD idx [])) then
    if infixOfB "sub".data (lineLower (lines.getD idx [])) then none
    else
      match extractAmountFromLine (lines.getD idx []) with
      | some amt => some amt
      | none =>
        if idx + 1 < lines.length then extractAmountFromLine (lines.getD (idx + 1) [])
        else none
  else none

/-- Strategy 2 of `find_total_amount`: scan lines bottom to top, first
successful line wins. -/
def phase2 (lines : List (List Char)) : Option ℚ :=
  firstSome (downFrom lines.length) (phase2Line lines)

/-- The `(amount, line_index)` pairs collected by Strategy 3: indices of
Python `range(len(lines)-1, max(-1, len(lines)-25), -1)` (the last 24
lines, bottom to top), skipping lines with Strategy-3 skip keywords, keeping
line amounts in `[1.0, 50000]`. -/
def phase3Pairs (lines : List (List Char)) : List (ℚ × Nat) :=
  ((downFrom lines.length).filter (fun idx => lines.length - 24 ≤ idx)).filterMap
    (fun idx =>
      let low := lineLower (lines.getD idx [])
      if containsKeyword phase3SkipKeywords low then none
      else
        (extractAmountFromLine (lines.getD idx [])).bind (fun amt =>
          if 1 ≤ amt ∧ amt ≤ 50000 then some (amt, idx) else none))

/-- Stable insertion into a list sorted by amount descending (the order
produced by Python `list.sort(key=lambda x: x[0], reverse=True)`). -/
def insDesc (p : ℚ × Nat) : List (ℚ × Nat) → List (ℚ × Nat)
  | [] => [p]
  | q :: qs => if q.1 < p.1 then p :: q :: qs else q :: insDesc p qs

/-- Stable sort by amount descending. -/
def sortDesc (l : List (ℚ × Nat)) : List (ℚ × Nat) :=
  l.foldr insDesc []

/-- Strategy 3 of `find_total_amount`: sort the collected pairs by amount
descending and return the first amount, if any. -/
def phase3 (lines : List (List Char)) : Option ℚ :=
  match sortDesc (phase3Pairs lines) with
  | [] => none
  | p :: _ => some p.1

/-- The `valid` list of Strategy 4: every strict two-decimal number in the
whole text whose value lies in `[1.0, 10000]`. -/
def phase4Valid (cs : List Char) : List ℚ :=
  (refindall bareDecimalRE cs).filterMap (fun d =>
    (pyFloat? d).bind (fun v => if 1 ≤ v ∧ v ≤ 10000 then some v else none))

/-- Strategy 4 of `find_total_amount`: the maximum valid two-decimal number,
if any. -/
def phase4 (cs : List Char) : Option ℚ :=
  match phase4Valid cs with
  | [] => none
  | a :: rest => some (rest.foldl max a)

/-- `find_total_amount` from the source: empty line list short-circuits to
`none`; otherwise the four strategies are tried in order, first success
wins. -/
def findTotalAmount (text : String) : Option ℚ :=
  if (linesOf text.data).isEmpty then none
  else
    match phase1 text.data with
    | some v => some v
    | none =>
      match phase2 (linesOf text.data) with
      | some v => some v
      | none =>
        match phase3 (linesOf text.data) with
        | some v => some v
        | none => phase4 text.data

/-- The `subtotal_patterns` of `parse_receipt` (searched with
`re.IGNORECASE`; under that flag the two variants coincide up to the space). -/
def subtotalPatterns : List RE :=
  [ seqRE [litCI "subtotal", RE.star spaceRE, RE.opt (oneOf ['$', '£', '€']),
      RE.star spaceRE,
      RE.group (seqRE [plusRE (RE.pred (fun c => c.isDigit || c == ',')),
        RE.opt (chr '.'), rep02 digitRE])],
    seqRE [litCI "sub total", RE.star spaceRE, RE.opt (oneOf ['$', '£', '€']),
      RE.star spaceRE,
      RE.group (seqRE [plusRE (RE.pred (fun c => c.isDigit || c == ',')),
        RE.opt (chr '.'), rep02 digitRE])] ]

/-- The `tax_patterns` of `parse_receipt` (searched with `re.IGNORECASE`;
the first two source patterns coincide under the flag). -/
def taxPatterns : List RE :=
  [ seqRE [litCI "tax", RE.star spaceRE, RE.opt (oneOf ['$', '£', '€']),
      RE.star spaceRE,
      RE.group (seqRE [plusRE (RE.pred (fun c => c.isDigit || c == ',')),
        RE.opt (chr '.'), rep02 digitRE])],
    seqRE [litCI "tax", RE.star spaceRE, RE.opt (oneOf ['$', '£', '€']),
      RE.star spaceRE,
      RE.group (seqRE [plusRE (RE.pred (fun c => c.isDigit || c == ',')),
        RE.opt (chr '.'), rep02 digitRE])],
    seqRE [litCI "gst", RE.star spaceRE, RE.opt (oneOf ['$', '£', '€']),
      RE.star spaceRE,
      RE.group (seqRE [plusRE (RE.pred (fun c => c.isDigit || c == ',')),
        RE.opt (chr '.'), rep02 digitRE])] ]

/-- The subtotal extraction of `parse_receipt`: first pattern whose leftmost
match's group parses as a float after comma removal (a failed parse falls
through to the next pattern, like the `except: continue`). -/
def findSubtotal (cs : List Char) : Option ℚ :=
  firstSome subtotalPatterns (fun pat =>
    ((refindall pat cs).head?).bind (fun g =>
      pyFloat? (g.filter (fun c => !(c == ',')))))

/-- The tax extraction of `parse_receipt`. -/
def findTax (cs : List Char) : Option ℚ :=
  firstSome taxPatterns (fun pat =>
    ((refindall pat cs).head?).bind (fun g =>
      pyFloat? (g.filter (fun c => !(c == ',')))))

/-- Python `round(x, 2)`, as round-half-up on exact rationals (for the
values reconciled here no tie at the third decimal occurs, so Python's
float half-to-even and half-up agree). -/
def round2 (q : ℚ) : ℚ := ((q * 100 + 1/2).floor : ℤ) / 100

/-- The `total` field produced by `parse_receipt`: the resolver's result,
overwritten by `round(subtotal + tax, 2)` exactly when the result is absent
or exceeds 5000 while both a subtotal and a tax were extracted. -/
def parseReceiptTotal (text : String) : Option ℚ :=
  match findSubtotal text.data, findTax text.data with
  | some s, some x =>
    match findTotalAmount text with
    | none => some (round2 (s + x))
    | some v => if 5000 < v then some (round2 (s + x)) else some v
  | _, _ => findTotalAmount text

/-- Kernel-friendly test that an optional rational equals a given rational,
by comparing numerator and denominator. -/
def optRatEq (o : Option ℚ) (q : ℚ) : Bool :=
  match o with
  | none => false
  | some v => v.num == q.num && v.den == q.den

theorem dropWhileLenLe (p : Char → Bool) (l : List Char) :
    (l.dropWhile p).length ≤ l.length := by
  induction l with
  | nil => simp [List.dropWhile]
  | cons c cs ih =>
    simp only [List.dropWhile]
    cases p c <;> simp <;> omega

theorem spacesThenDigitLen {cs : List Char} {d : Char} {rest : List Char}
    (h : spacesThenDigit cs = some (d, rest)) : rest.length < cs.length := by
  unfold spacesThenDigit at h
  have hlen : (cs.dropWhile pyIsSpace).length ≤ cs.length := dropWhileLenLe _ _
  split at h
  · exact absurd h (by simp)
  · split at h
    · exact absurd h (by simp)
    · rename_i heq
      rw [heq] at hlen
      split at h
      · simp only [Option.some.injEq, Prod.mk.injEq] at h
        obtain ⟨_, h2⟩ := h
        subst h2
        simp only [List.length_cons] at hlen
        omega
      · exact absurd h (by simp)

/-- A successful `firstSome` comes from some list element. -/
theorem firstSomeSome {α β : Type} {l : List α} {f : α → Option β} {v : β}
    (h : firstSome l f = some v) : ∃ x ∈ l, f x = some v := by
  induction l with
  | nil => exact absurd h (by simp [firstSome])
  | cons x xs ih =>
    rw [firstSome] at h
    cases hfx : f x with
    | some w =>
      rw [hfx] at h
      exact ⟨x, List.mem_cons_self x xs, hfx.trans h⟩
    | none =>
      rw [hfx] at h
      obtain ⟨y, hy, hfy⟩ := ih h
      exact ⟨y, List.mem_cons_of_mem x hy, hfy⟩

/-- A left fold of `max` yields either the seed or a list element. -/
theorem foldlMaxChoice (r : List ℚ) (a : ℚ) :
    r.foldl max a = a ∨ r.foldl max a ∈ r := by
  induction r generalizing a with
  | nil => exact Or.inl rfl
  | cons b t ih =>
    rw [List.foldl_cons]
    rcases ih (max a b) with h | h
    · rcases max_choice a b with hm | hm
      · exact Or.inl (h.trans hm)
      · exact Or.inr (by rw [h, hm]; exact List.mem_cons_self b t)
    · exact Or.inr (List.mem_cons_of_mem b h)

/-- The seed is below a left fold of `max`. -/
theorem leFoldlMax (r : List ℚ) (a : ℚ) : a ≤ r.foldl max a := by
  induction r generalizing a with
  | nil => exact le_rfl
  | cons b t ih => exact le_trans (le_max_left a b) (ih (max a b))

/-- Every list element is below a left fold of `max` over the list. -/
theorem memLeFoldlMax {r : List ℚ} {x : ℚ} (hx : x ∈ r) (a : ℚ) :
    x ≤ r.foldl max a := by
  induction r generalizing a with
  | nil => exact absurd hx (List.not_mem_nil x)
  | cons b t ih =>
    rw [List.foldl_cons]
    rcases List.mem_cons.mp hx with h | h
    · subst h
      exact le_trans (le_max_right a x) (leFoldlMax t (max a x))
    · exact ih h (max a b)

/-- Every collected line amount lies in `[0.01, 50000]`. -/
theorem lineAmountsBounds {line : List Char} {x : ℚ} (hx : x ∈ lineAmounts line) :
    1/100 ≤ x ∧ x ≤ 50000 := by
  unfold lineAmounts at hx
  rw [List.mem_bind] at hx
  obtain ⟨pat, _, hmem⟩ := hx
  rw [List.mem_filterMap] at hmem
  obtain ⟨m, _, hm⟩ := hmem
  cases hp : parseAmt m with
  | none => rw [hp] at hm; exact absurd hm (by simp)
  | some a =>
    rw [hp] at hm
    simp only [Option.some_bind] at hm
    split at hm
    · rename_i hrange
      cases hm
      exact hrange
    · exact absurd hm (by simp)

/-- A successful line extraction returns a member of the collected amounts
that dominates all of them. -/
theorem extractSomeSpec {line : List Char} {v : ℚ}
    (h : extractAmountFromLine line = some v) :
    v ∈ lineAmounts line ∧ ∀ x ∈ lineAmounts line, x ≤ v := by
  unfold extractAmountFromLine at h
  cases hl : lineAmounts line with
  | nil => rw [hl] at h; exact absurd h (by simp)
  | cons a rest =>
    rw [hl] at h
    simp only [Option.some.injEq] at h
    subst h
    constructor
    · rcases foldlMaxChoice rest a with hc | hc
      · rw [hc]; exact List.mem_cons_self a rest
      · exact List.mem_cons_of_mem a hc
    · intro x hx
      rcases List.mem_cons.mp hx with hxa | hxr
      · exact hxa ▸ leFoldlMax rest a
      · exact memLeFoldlMax hxr a

/-- A successful line extraction lies in `[0.01, 50000]`. -/
theorem extractBounds {line : List Char} {v : ℚ}
    (h : extractAmountFromLine line = some v) : 1/100 ≤ v ∧ v ≤ 50000 :=
  lineAmountsBounds (extractSomeSpec h).1

/-- A Strategy-1 result lies in `[0.01, 50000]` and is the parse of some
match of some direct pattern. -/
theorem phase1Spec {cs : List Char} {v : ℚ} (h : phase1 cs = some v) :
    (1/100 ≤ v ∧ v ≤ 50000) ∧
      ∃ pat ∈ directPatterns, ∃ m ∈ refindall pat cs, parseAmt m = some v := by
  unfold phase1 at h
  obtain ⟨pat, hpat, hinner⟩ := firstSomeSome h
  obtain ⟨m, hm, hfm⟩ := firstSomeSome hinner
  cases hp : parseAmt m with
  | none => rw [hp] at hfm; exact absurd hfm (by simp)
  | some a =>
    rw [hp] at hfm
    change (if 1/100 ≤ a ∧ a ≤ 50000 then some a else none) = some v at hfm
    split at hfm
    · rename_i hrange
      simp only [Option.some.injEq] at hfm
      subst hfm
      exact ⟨hrange, pat, hpat, m, List.mem_reverse.mp hm, hp⟩
    · exact absurd hfm (by simp)

/-- A Strategy-2 result lies in `[0.01, 50000]`. -/
theorem phase2Bounds {lines : List (List Char)} {v : ℚ}
    (h : phase2 lines = some v) : 1/100 ≤ v ∧ v ≤ 50000 := by
  unfold phase2 at h
  obtain ⟨idx, _, hidx⟩ := firstSomeSome h
  unfold phase2Line at hidx
  split at hidx
  · exact absurd hidx (by simp)
  · split at hidx
    · exact absurd hidx (by simp)
    · split at hidx
      · split at hidx
        · exact absurd hidx (by simp)
        · split at hidx
          · rename_i hext
            cases hidx
            exact extractBounds hext
          · split at hidx
            · exact extractBounds hidx
            · exact absurd hidx (by simp)
      · exact absurd hidx (by simp)

/-- Membership in `downFrom`. -/
theorem memDownFrom {n i : Nat} : i ∈ downFrom n ↔ i < n := by
  induction n with
  | zero => simp [downFrom]
  | succ k ih =>
    rw [downFrom]
    simp only [List.mem_cons, ih]
    omega

/-- Every pair collected by Strategy 3 satisfies the range check, indexes a
line among the last 24, and its line passed the Strategy-3 skip filter and
produced it as the line amount. -/
theorem phase3PairsSpec {lines : List (List Char)} {a : ℚ} {i : Nat}
    (h : (a, i) ∈ phase3Pairs lines) :
    (1 ≤ a ∧ a ≤ 50000) ∧ lines.length - 24 ≤ i ∧ i < lines.length ∧
      containsKeyword phase3SkipKeywords (lineLower (lines.getD i [])) = false ∧
      extractAmountFromLine (lines.getD i []) = some a := by
  unfold phase3Pairs at h
  rw [List.mem_filterMap] at h
  obtain ⟨idx, hidx, hf⟩ := h
  rw [List.mem_filter] at hidx
  obtain ⟨hidx1, hidx2⟩ := hidx
  simp only at hf
  split at hf
  · exact absurd hf (by simp)
  · rename_i hskip
    cases hext : extractAmountFromLine (lines.getD idx []) with
    | none => rw [hext] at hf; exact absurd hf (by simp)
    | some amt =>
      rw [hext] at hf
      simp only [Option.some_bind] at hf
      split at hf
      · rename_i hrange
        simp only [Option.some.injEq, Prod.mk.injEq] at hf
        obtain ⟨ha, hi⟩ := hf
        subst ha; subst hi
        refine ⟨hrange, ?_, memDownFrom.mp hidx1, by simpa using hskip, hext⟩
        simpa using hidx2
      · exact absurd hf (by simp)

/-- Every element of the insertion `insDesc p l` is `p` or an element
of `l`. -/
theorem memInsDesc {p q : ℚ × Nat} {l : List (ℚ × Nat)} :
    q ∈ insDesc p l ↔ q = p ∨ q ∈ l := by
  induction l with
  | nil => simp [insDesc]
  | cons r t ih =>
    rw [insDesc]
    split
    · simp [List.mem_cons]
    · simp only [List.mem_cons, ih]
      tauto

/-- Membership is preserved by the descending sort. -/
theorem memSortDesc {q : ℚ × Nat} {l : List (ℚ × Nat)} :
    q ∈ sortDesc l ↔ q ∈ l := by
  induction l with
  | nil => simp [sortDesc]
  | cons r t ih =>
    show q ∈ insDesc r (sortDesc t) ↔ _
    rw [memInsDesc, ih, List.mem_cons]

/-- Insertion preserves the pairwise descending-amount property. -/
theorem pairwiseInsDesc {p : ℚ × Nat} {l : List (ℚ × Nat)}
    (h : l.Pairwise (fun a b => b.1 ≤ a.1)) :
    (insDesc p l).Pairwise (fun a b => b.1 ≤ a.1) := by
  induction l with
  | nil => simp [insDesc]
  | cons r t ih =>
    rw [insDesc]
    rw [List.pairwise_cons] at h
    obtain ⟨hr, ht⟩ := h
    split
    · rename_i hlt
      rw [List.pairwise_cons]
      refine ⟨?_, List.pairwise_cons.mpr ⟨hr, ht⟩⟩
      intro b hb
      rcases List.mem_cons.mp hb with hbr | hbt
      · subst hbr; exact le_of_lt hlt
      · exact le_trans (hr b hbt) (le_of_lt hlt)
    · rename_i hnlt
      rw [List.pairwise_cons]
      refine ⟨?_, ih ht⟩
      intro b hb
      rcases memInsDesc.mp hb with hbp | hbt
      · subst hbp; exact le_of_not_lt hnlt
      · exact hr b hbt

/-- The descending sort is pairwise descending in the amount. -/
theorem pairwiseSortDesc (l : List (ℚ × Nat)) :
    (sortDesc l).Pairwise (fun a b => b.1 ≤ a.1) := by
  induction l with
  | nil => simp [sortDesc]
  | cons r t ih => exact pairwiseInsDesc ih

/-- The head of the descending sort dominates every element. -/
theorem sortDescHeadGe {l t : List (ℚ × Nat)} {p : ℚ × Nat}
    (h : sortDesc l = p :: t) : ∀ q ∈ l, q.1 ≤ p.1 := by
  intro q hq
  have hmem : q ∈ p :: t := h ▸ memSortDesc.mpr hq
  rcases List.mem_cons.mp hmem with hqp | hqt
  · subst hqp; exact le_rfl
  · have hpw := pairwiseSortDesc l
    rw [h, List.pairwise_cons] at hpw
    exact hpw.1 q hqt

/-- A Strategy-3 result is the amount of a collected pair and dominates all
collected pairs. -/
theorem phase3Spec {lines : List (List Char)} {v : ℚ}
    (h : phase3 lines = some v) :
    (∃ i, (v, i) ∈ phase3Pairs lines) ∧
      ∀ a i, (a, i) ∈ phase3Pairs lines → a ≤ v := by
  unfold phase3 at h
  cases hs : sortDesc (phase3Pairs lines) with
  | nil => rw [hs] at h; exact absurd h (by simp)
  | cons p t =>
    rw [hs] at h
    simp only [Option.some.injEq] at h
    subst h
    constructor
    · have : p ∈ phase3Pairs lines := memSortDesc.mp (hs ▸ List.mem_cons_self p t)
      exact ⟨p.2, this⟩
    · intro a i hai
      exact sortDescHeadGe hs (a, i) hai

/-- A Strategy-3 result lies in `[1, 50000]`. -/
theorem phase3Bounds {lines : List (List Char)} {v : ℚ}
    (h : phase3 lines = some v) : 1 ≤ v ∧ v ≤ 50000 := by
  obtain ⟨⟨i, hi⟩, _⟩ := phase3Spec h
  exact (phase3PairsSpec hi).1

/-- Every Strategy-4 candidate lies in `[1, 10000]`. -/
theorem phase4ValidBounds {cs : List Char} {x : ℚ} (hx : x ∈ phase4Valid cs) :
    1 ≤ x ∧ x ≤ 10000 := by
  unfold phase4Valid at hx
  rw [List.mem_filterMap] at hx
  obtain ⟨d, _, hd⟩ := hx
  cases hp : pyFloat? d with
  | none => rw [hp] at hd; exact absurd hd (by simp)
  | some w =>
    rw [hp] at hd
    simp only [Option.some_bind] at hd
    split at hd
    · rename_i hrange
      cases hd
      exact hrange
    · exact absurd hd (by simp)

/-- A Strategy-4 result lies in `[1, 10000]`. -/
theorem phase4Bounds {cs : List Char} {v : ℚ} (h : phase4 cs = some v) :
    1 ≤ v ∧ v ≤ 10000 := by
  unfold phase4 at h
  cases hl : phase4Valid cs with
  | nil => rw [hl] at h; exact absurd h (by simp)
  | cons a rest =>
    rw [hl] at h
    simp only [Option.some.injEq] at h
    subst h
    rcases foldlMaxChoice rest a with hc | hc
    · rw [hc]
      exact phase4ValidBounds (by rw [hl]; exact List.mem_cons_self a rest)
    · exact phase4ValidBounds (by rw [hl]; exact List.mem_cons_of_mem a hc)

/-- `collapseAux` is fuel-invariant above the input length, so the fuel
`l.length` used by `collapseDigitSpaces` is adequate. -/
theorem collapseAuxAdequate : ∀ (fuel : Nat) (l : List Char),
    l.length ≤ fuel → collapseAux fuel l = collapseDigitSpaces l := by
  have key : ∀ (f1 : Nat) (f2 : Nat) (l : List Char), l.length ≤ f1 →
      l.length ≤ f2 → collapseAux f1 l = collapseAux f2 l := by
    intro f1
    induction f1 with
    | zero =>
      intro f2 l h1 _
      have : l = [] := List.length_eq_zero.mp (Nat.le_zero.mp h1)
      subst this
      cases f2 <;> rfl
    | succ k ih =>
      intro f2 l h1 h2
      cases l with
      | nil => cases f2 <;> rfl
      | cons c cs =>
        cases f2 with
        | zero => exact absurd h2 (by simp)
        | succ k2 =>
          rw [collapseAux, collapseAux]
          simp only [List.length_cons] at h1 h2
          by_cases hd : c.isDigit
          · rw [if_pos hd, if_pos hd]
            cases hsp : spacesThenDigit cs with
            | none =>
              exact congrArg (c :: ·) (ih k2 cs (by omega) (by omega))
            | some p =>
              obtain ⟨d, rest⟩ := p
              have hlt : rest.length < cs.length := spacesThenDigitLen hsp
              exact congrArg (c :: d :: ·) (ih k2 rest (by omega) (by omega))
          · rw [if_neg hd, if_neg hd]
            exact congrArg (c :: ·) (ih k2 cs (by omega) (by omega))
  intro fuel l h
  exact key fuel l.length l h le_rfl

/-- A true `optRatEq` test gives the corresponding `Option` equality. -/
theorem eqSomeOfRatEqB {o : Option ℚ} {q : ℚ} (h : optRatEq o q = true) :
    o = some q := by
  unfold optRatEq at h
  cases o with
  | none => exact absurd h (by simp)
  | some v =>
    rw [Bool.and_eq_true, beq_iff_eq, beq_iff_eq] at h
    exact congrArg some (Rat.ext h.1 h.2)

/-- C1.  Every value returned by the resolver lies in `[0.01, 50000]`, and a
value produced by the final fallback (Strategy 4, reached when the first
three strategies fail) additionally lies in `[1.0, 10000]`. -/
theorem claim_c1_resolved_range (text : String) (v : ℚ)
    (h : findTotalAmount text = some v) :
    (1/100 ≤ v ∧ v ≤ 50000) ∧
      (phase1 text.data = none → phase2 (linesOf text.data) = none →
        phase3 (linesOf text.data) = none → 1 ≤ v ∧ v ≤ 10000) := by
  unfold findTotalAmount at h
  split at h
  · exact absurd h (by simp)
  · cases hp1 : phase1 text.data with
    | some w =>
      rw [hp1] at h
      simp only [Option.some.injEq] at h
      subst h
      refine ⟨(phase1Spec hp1).1, fun hc => Option.noConfusion hc⟩
    | none =>
      rw [hp1] at h
      cases hp2 : phase2 (linesOf text.data) with
      | some w =>
        rw [hp2] at h
        simp only [Option.some.injEq] at h
        subst h
        refine ⟨phase2Bounds hp2, fun _ hc => Option.noConfusion hc⟩
      | none =>
        rw [hp2] at h
        cases hp3 : phase3 (linesOf text.data) with
        | some w =>
          rw [hp3] at h
          simp only [Option.some.injEq] at h
          subst h
          obtain ⟨h1, h2⟩ := phase3Bounds hp3
          exact ⟨⟨le_trans (by norm_num) h1, h2⟩,
            fun _ _ hc => Option.noConfusion hc⟩
        | none =>
          rw [hp3] at h
          obtain ⟨h1, h2⟩ := phase4Bounds h
          exact ⟨⟨le_trans (by norm_num) h1, le_trans h2 (by norm_num)⟩,
            fun _ _ _ => ⟨h1, h2⟩⟩

/-- Witness for C1 at the concrete input `"cash 5.16"`, which is resolved by
Strategy 4 (the line is excluded in Strategies 2 and 3 and no direct pattern
matches), instantiating both conjuncts. -/
theorem claim_c1_resolved_range_witness :
    ((1/100 ≤ (129/25 : ℚ) ∧ (129/25 : ℚ) ≤ 50000) ∧
      (1 ≤ (129/25 : ℚ) ∧ (129/25 : ℚ) ≤ 10000)) :=
  have h := claim_c1_resolved_range "cash 5.16" (129/25)
    (by with_unfolding_all decide)
  ⟨h.1, h.2 (by with_unfolding_all decide) (by with_unfolding_all decide)
    (by with_unfolding_all decide)⟩

/-- Characters of a piece of `splitWhen` are characters of the input. -/
theorem memSplitWhen {p : Char → Bool} {cs : List Char} {l : List Char}
    {c : Char} (hl : l ∈ splitWhen p cs) (hc : c ∈ l) : c ∈ cs := by
  induction cs generalizing l with
  | nil =>
    rw [splitWhen] at hl
    simp only [List.mem_singleton] at hl
    subst hl
    exact absurd hc (List.not_mem_nil c)
  | cons d ds ih =>
    rw [splitWhen] at hl
    split at hl
    · rcases List.mem_cons.mp hl with h | h
      · subst h; exact absurd hc (List.not_mem_nil c)
      · exact List.mem_cons_of_mem d (ih h hc)
    · cases hsp : splitWhen p ds with
      | nil => rw [hsp] at hl; simp only [List.mem_singleton] at hl; subst hl
               rcases List.mem_cons.mp hc with h | h
               · exact h ▸ List.mem_cons_self d ds
               · exact absurd h (List.not_mem_nil c)
      | cons l0 ls =>
        rw [hsp] at hl
        rcases List.mem_cons.mp hl with h | h
        · subst h
          rcases List.mem_cons.mp hc with h2 | h2
          · exact h2 ▸ List.mem_cons_self d ds
          · exact List.mem_cons_of_mem d (ih (hsp ▸ List.mem_cons_self l0 ls) h2)
        · exact List.mem_cons_of_mem d (ih (hsp ▸ List.mem_cons_of_mem l0 h) hc)

/-- `dropWhile` of a list all of whose members satisfy the predicate is
empty. -/
theorem dropWhileAllSat {p : Char → Bool} {l : List Char}
    (h : ∀ c ∈ l, p c = true) : l.dropWhile p = [] := by
  induction l with
  | nil => rfl
  | cons c cs ih =>
    rw [List.dropWhile_cons, if_pos (h c (List.mem_cons_self c cs))]
    exact ih (fun d hd => h d (List.mem_cons_of_mem c hd))

/-- Stripping a whitespace-only string yields the empty string. -/
theorem pyStripAllWs {l : List Char} (h : ∀ c ∈ l, pyIsSpace c = true) :
    pyStrip l = [] := by
  unfold pyStrip
  rw [dropWhileAllSat h]
  rfl

/-- A whitespace-only text yields no lines. -/
theorem linesOfAllWs {cs : List Char} (h : ∀ c ∈ cs, pyIsSpace c = true) :
    linesOf cs = [] := by
  unfold linesOf
  rw [List.filter_eq_nil]
  intro l hl
  rw [List.mem_map] at hl
  obtain ⟨piece, hpiece, hmap⟩ := hl
  have : pyStrip piece = [] :=
    pyStripAllWs (fun c hc => h c (memSplitWhen hpiece hc))
  subst hmap
  rw [this]
  decide

/-- C2.  The resolver is total: on every input it returns an explicit
optional value (a number or `none`, never a sentinel), and on
whitespace-only input (including the empty string) it returns `none`
immediately. -/
theorem claim_c2_total_safety (text : String) :
    (findTotalAmount text = none ∨ ∃ v : ℚ, findTotalAmount text = some v) ∧
      ((∀ c ∈ text.data, pyIsSpace c = true) → findTotalAmount text = none) := by
  constructor
  · cases h : findTotalAmount text with
    | none => exact Or.inl rfl
    | some v => exact Or.inr ⟨v, rfl⟩
  · intro hws
    unfold findTotalAmount
    rw [linesOfAllWs hws]
    rfl

/-- Witness for C2 at a whitespace-only input. -/
theorem claim_c2_total_safety_witness : findTotalAmount " \n\t " = none :=
  (claim_c2_total_safety " \n\t ").2 (by decide)

/-- C3 counterexample.  On `"Subtotal $100.50\nTax $8.04"` the resolver does
not return `none`: the second direct pattern (`[Tt][Oo][Tt][Aa][Ll]...`)
matches the `"total"` suffix of `"Subtotal"` and Strategy 1 accepts 100.50,
so the reconciliation never computes 108.54 either. -/
theorem claim_c3_counterexample :
    findTotalAmount "Subtotal $100.50\nTax $8.04" ≠ none ∧
      parseReceiptTotal "Subtotal $100.50\nTax $8.04" ≠ some (5427/50) := by
  constructor
  · with_unfolding_all decide
  · with_unfolding_all decide

/-- C3 amended.  On `"Subtotal $100.50\nTax $8.04"` the resolver returns
100.50 (Strategy 1 matches the `"total"` inside `"Subtotal"`), the subtotal
and tax are extracted as 100.50 and 8.04, and since the resolved total is
neither absent nor above 5000 the reconciliation leaves it at 100.50. -/
theorem claim_c3_amended :
    findTotalAmount "Subtotal $100.50\nTax $8.04" = some (201/2) ∧
      findSubtotal "Subtotal $100.50\nTax $8.04".data = some (201/2) ∧
      findTax "Subtotal $100.50\nTax $8.04".data = some (201/25) ∧
      parseReceiptTotal "Subtotal $100.50\nTax $8.04" = some (201/2) := by
  refine ⟨?_, ?_, ?_, ?_⟩
  · with_unfolding_all decide
  · with_unfolding_all decide
  · with_unfolding_all decide
  · with_unfolding_all decide

/-- C4 counterexample.  On `"TOTAL 1 00.50"` the resolver does not return
100.50: the capture group `(\d+[,.\s]*\d*)` of the second direct pattern
captures only `"1 00"` (its middle class consumes the space and its final
`\d*` stops at the second dot), which cleans to `"100"`. -/
theorem claim_c4_counterexample :
    ¬ (findTotalAmount "TOTAL 1 00.50" = some (201/2)) := by
  with_unfolding_all decide

/-- C4 amended.  On `"TOTAL 1 00.50"` the captured number is `"1 00"`,
cleaning collapses it to `"100"`, and the resolver returns 100.0; cleaning
the full noisy token `"1 00.50"` would indeed give `"100.50"`, but that is
not what the pattern captures. -/
theorem claim_c4_amended :
    findTotalAmount "TOTAL 1 00.50" = some 100 ∧
      cleanNumberString "1 00".data = "100".data ∧
      cleanNumberString "1 00.50".data = "100.50".data := by
  refine ⟨?_, ?_, ?_⟩
  · with_unfolding_all decide
  · with_unfolding_all decide
  · with_unfolding_all decide

/-- C10.  In Strategy 2, a total-keyword line with no extractable amount
falls back to the immediately following line with no skip/exclude filtering.
The first conjunct states the mechanism in general: whenever the loop body
`phase2Line` reaches a total-keyword line whose own extraction fails and a
following line exists, its result is the following line's extraction — with
no hypothesis whatsoever about the following line's keywords.  The remaining
conjuncts pin the example: for `"Total:"` followed by `"Change: $5.16"`,
Strategy 2 itself returns 5.16 even though `"change"` is an exclude keyword
occurring in that following line, and the resolver returns it. -/
theorem claim_c10_next_line :
    (∀ (lines : List (List Char)) (idx : Nat),
      containsKeyword skipKeywords (lineLower (lines.getD idx [])) = false →
      containsKeyword excludeLineKeywords (lineLower (lines.getD idx [])) = false →
      containsKeyword totalKeywords (lineLower (lines.getD idx [])) = true →
      infixOfB "sub".data (lineLower (lines.getD idx [])) = false →
      extractAmountFromLine (lines.getD idx []) = none →
      idx + 1 < lines.length →
      phase2Line lines idx = extractAmountFromLine (lines.getD (idx + 1) [])) ∧
      findTotalAmount "Total:\nChange: $5.16" = some (129/25) ∧
      phase1 "Total:\nChange: $5.16".data = none ∧
      phase2 (linesOf "Total:\nChange: $5.16".data) = some (129/25) ∧
      extractAmountFromLine "Total:".data = none ∧
      extractAmountFromLine "Change: $5.16".data = some (129/25) ∧
      "change".data ∈ excludeLineKeywords ∧
      infixOfB "change".data (lineLower "Change: $5.16".data) = true := by
  refine ⟨?_, ?_, ?_, ?_, ?_, ?_, ?_, ?_⟩
  · intro lines idx h1 h2 h3 h4 h5 h6
    unfold phase2Line
    rw [if_neg (by rw [h1]; simp), if_neg (by rw [h2]; simp), if_pos h3,
      if_neg (by rw [h4]; simp), h5]
    change (if idx + 1 < lines.length then
      extractAmountFromLine (lines.getD (idx + 1) []) else none) = _
    rw [if_pos h6]
  · with_unfolding_all decide
  · with_unfolding_all decide
  · with_unfolding_all decide
  · with_unfolding_all decide
  · with_unfolding_all decide
  · with_unfolding_all decide
  · with_unfolding_all decide

/-- Witness for C10: the general next-line-fallback conjunct instantiated at
the example's line list and index 0 (the `"Total:"` line), with every
hypothesis discharged by evaluation. -/
theorem claim_c10_next_line_witness :
    phase2Line (linesOf "Total:\nChange: $5.16".data) 0 =
      extractAmountFromLine ((linesOf "Total:\nChange: $5.16".data).getD 1 []) :=
  claim_c10_next_line.1 (linesOf "Total:\nChange: $5.16".data) 0
    (by with_unfolding_all decide) (by with_unfolding_all decide)
    (by with_unfolding_all decide) (by with_unfolding_all decide)
    (by with_unfolding_all decide) (by with_unfolding_all decide)

/-- C5.  `parse_receipt` overwrites the resolved total with
`round(subtotal + tax, 2)` exactly when the resolver's result is absent or
exceeds 5000 while both a subtotal and a tax were extracted; in every other
case the total field is the resolver's result unchanged. -/
theorem claim_c5_reconciliation (text : String) :
    (∀ s x : ℚ, findSubtotal text.data = some s → findTax text.data = some x →
      (findTotalAmount text = none ∨ ∃ v, findTotalAmount text = some v ∧ 5000 < v) →
      parseReceiptTotal text = some (round2 (s + x))) ∧
    (∀ v : ℚ, findTotalAmount text = some v → v ≤ 5000 →
      parseReceiptTotal text = some v) ∧
    ((findSubtotal text.data = none ∨ findTax text.data = none) →
      parseReceiptTotal text = findTotalAmount text) := by
  refine ⟨?_, ?_, ?_⟩
  · intro s x hs hx hcond
    unfold parseReceiptTotal
    rw [hs, hx]
    rcases hcond with hnone | ⟨v, hv, hgt⟩
    · rw [hnone]
    · rw [hv]
      simp only [if_pos hgt]
  · intro v hv hle
    unfold parseReceiptTotal
    cases hs : findSubtotal text.data with
    | none => exact hv
    | some s =>
      cases hx : findTax text.data with
      | none => exact hv
      | some x =>
        rw [hv]
        simp only [if_neg (not_lt.mpr hle)]
  · intro hcase
    unfold parseReceiptTotal
    rcases hcase with hs | hx
    · rw [hs]
    · rw [hx]
      cases findSubtotal text.data <;> rfl

/-- Witness for C5: on `"Subtotal 6000.00\nTax 10.00"` the resolver yields
6000 (above the 5000 bound) and both fields are extracted, so the total is
overwritten with the rounded sum; on `"TOTAL: $14.84"` the condition fails
and the resolver's value is kept. -/
theorem claim_c5_reconciliation_witness :
    parseReceiptTotal "Subtotal 6000.00\nTax 10.00" = some (round2 (6000 + 10)) ∧
      parseReceiptTotal "TOTAL: $14.84" = some (371/25) :=
  ⟨(claim_c5_reconciliation "Subtotal 6000.00\nTax 10.00").1 6000 10
      (eqSomeOfRatEqB (by with_unfolding_all decide))
      (eqSomeOfRatEqB (by with_unfolding_all decide))
      (Or.inr ⟨6000, eqSomeOfRatEqB (by with_unfolding_all decide), by norm_num⟩),
    (claim_c5_reconciliation "TOTAL: $14.84").2.1 (371/25)
      (by with_unfolding_all decide) (by norm_num)⟩

/-- C8.  `parse_amt`: an empty or lone-dot cleaned string yields `none`;
with more than one decimal point only the first two dot-separated segments
are parsed; a parsed value above 100000 yields `none`; otherwise the parsed
value is returned. -/
theorem claim_c8_parse_amt (s : List Char) :
    (cleanNumberString s = [] ∨ cleanNumberString s = ['.'] → parseAmt s = none) ∧
      (2 < (splitWhen (fun ch => ch == '.') (cleanNumberString s)).length →
        truncDots (cleanNumberString s) =
          (splitWhen (fun ch => ch == '.') (cleanNumberString s)).getD 0 [] ++
            '.' :: (splitWhen (fun ch => ch == '.') (cleanNumberString s)).getD 1 []) ∧
      (∀ v : ℚ, pyFloat? (truncDots (cleanNumberString s)) = some v → 100000 < v →
        parseAmt s = none) ∧
      (∀ v : ℚ, cleanNumberString s ≠ [] → cleanNumberString s ≠ ['.'] →
        pyFloat? (truncDots (cleanNumberString s)) = some v → v ≤ 100000 →
        parseAmt s = some v) := by
  refine ⟨?_, ?_, ?_, ?_⟩
  · intro h
    unfold parseAmt
    rw [if_pos h]
  · intro hlen
    unfold truncDots
    rw [if_pos hlen]
  · intro v hv hgt
    by_cases hc : cleanNumberString s = [] ∨ cleanNumberString s = ['.']
    · unfold parseAmt
      rw [if_pos hc]
    · unfold parseAmt
      rw [if_neg hc, hv]
      change (if 100000 < v then none else some v) = none
      rw [if_pos hgt]
  · intro v h1 h2 hv hle
    unfold parseAmt
    rw [if_neg (not_or.mpr ⟨h1, h2⟩), hv]
    change (if 100000 < v then none else some v) = some v
    rw [if_neg (not_lt.mpr hle)]

/-- Witness for C8 at `"12.34.56"`: cleaning keeps all three segments, the
repair keeps `"12.34"`, and 12.34 is returned. -/
theorem claim_c8_parse_amt_witness : parseAmt "12.34.56".data = some (617/50) :=
  (claim_c8_parse_amt "12.34.56".data).2.2.2 (617/50)
    (by with_unfolding_all decide) (by with_unfolding_all decide)
    (by with_unfolding_all decide) (by norm_num)

/-- A digit character has code point between 48 and 57. -/
theorem digitToNatBounds {c : Char} (h : c.isDigit = true) :
    48 ≤ c.toNat ∧ c.toNat ≤ 57 := by
  rw [Char.isDigit, Bool.and_eq_true, decide_eq_true_eq, decide_eq_true_eq] at h
  obtain ⟨h1, h2⟩ := h
  exact ⟨UInt32.le_toNat_of_le (by norm_num) h1, UInt32.toNat_le_of_le (by norm_num) h2⟩

/-- Characters with different code points are not `==`. -/
theorem charNeOfToNat {c d : Char} (h : c.toNat ≠ d.toNat) : (c == d) = false := by
  rw [beq_eq_false_iff_ne]
  intro hc
  exact h (by rw [hc])

/-- Lowercasing fixes a digit. -/
theorem digitToLowerSelf {c : Char} (h : 48 ≤ c.toNat ∧ c.toNat ≤ 57) :
    c.toLower = c := by
  rw [Char.toLower, if_neg]
  intro hcon
  omega

/-- A digit-or-dot character is not whitespace, not a currency glyph, not a
letter lowercasing to `r`, and not a comma — so every cleaning stage leaves
it alone. -/
theorem digitDotMemFacts (c : Char) (hc : (c.isDigit || c == '.') = true) :
    pyIsSpace c = false ∧
      (c == '$' || c == '£' || c == '€' || c == '₹' || c == '¥') = false ∧
      (c.toLower == 'r') = false ∧ (c == ',') = false := by
  rw [Bool.or_eq_true] at hc
  rcases hc with hd | hdot
  · have hb := digitToNatBounds hd
    refine ⟨?_, ?_, ?_, ?_⟩
    · unfold pyIsSpace
      rw [charNeOfToNat (show c.toNat ≠ (' '.toNat) from by
            have : (' '.toNat) = 32 := rfl; omega),
          charNeOfToNat (show c.toNat ≠ ('\t'.toNat) from by
            have : ('\t'.toNat) = 9 := rfl; omega),
          charNeOfToNat (show c.toNat ≠ ('\n'.toNat) from by
            have : ('\n'.toNat) = 10 := rfl; omega),
          charNeOfToNat (show c.toNat ≠ ('\r'.toNat) from by
            have : ('\r'.toNat) = 13 := rfl; omega),
          charNeOfToNat (show c.toNat ≠ ('\x0b'.toNat) from by
            have : ('\x0b'.toNat) = 11 := rfl; omega),
          charNeOfToNat (show c.toNat ≠ ('\x0c'.toNat) from by
            have : ('\x0c'.toNat) = 12 := rfl; omega)]
      rfl
    · rw [charNeOfToNat (show c.toNat ≠ ('$'.toNat) from by
            have : ('$'.toNat) = 36 := rfl; omega),
          charNeOfToNat (show c.toNat ≠ ('£'.toNat) from by
            have : ('£'.toNat) = 163 := rfl; omega),
          charNeOfToNat (show c.toNat ≠ ('€'.toNat) from by
            have : ('€'.toNat) = 8364 := rfl; omega),
          charNeOfToNat (show c.toNat ≠ ('₹'.toNat) from by
            have : ('₹'.toNat) = 8377 := rfl; omega),
          charNeOfToNat (show c.toNat ≠ ('¥'.toNat) from by
            have : ('¥'.toNat) = 165 := rfl; omega)]
      rfl
    · rw [digitToLowerSelf hb]
      exact charNeOfToNat (by have : ('r'.toNat) = 114 := rfl; omega)
    · exact charNeOfToNat (by have : (','.toNat) = 44 := rfl; omega)
  · have : c = '.' := by
      have := beq_iff_eq.mp hdot
      exact this
    subst this
    refine ⟨rfl, rfl, rfl, rfl⟩

/-- Members of a `dropWhile` are members of the list. -/
theorem memDropWhile {p : Char → Bool} {l : List Char} {c : Char}
    (h : c ∈ l.dropWhile p) : c ∈ l := by
  induction l with
  | nil => exact absurd h (List.not_mem_nil c)
  | cons a t ih =>
    rw [List.dropWhile_cons] at h
    split at h
    · exact List.mem_cons_of_mem a (ih h)
    · exact h

/-- Members of a stripped string are members of the string. -/
theorem memPyStrip {l : List Char} {c : Char} (h : c ∈ pyStrip l) : c ∈ l := by
  unfold pyStrip at h
  rw [List.mem_reverse] at h
  have h2 := memDropWhile h
  rw [List.mem_reverse] at h2
  exact memDropWhile h2

/-- Every character of a cleaned number string is a digit or a dot. -/
theorem cleanMembers (s : List Char) :
    ∀ c ∈ cleanNumberString s, (c.isDigit || c == '.') = true := by
  intro c hc
  unfold cleanNumberString at hc
  split at hc
  · exact absurd hc (List.not_mem_nil c)
  · have h2 := memPyStrip hc
    unfold keepDigitsDots at h2
    exact (List.mem_filter.mp h2).2

/-- On a string with no whitespace, the space-then-digit probe fails. -/
theorem noSpaceSpacesThenDigit {cs : List Char}
    (h : ∀ c ∈ cs, pyIsSpace c = false) : spacesThenDigit cs = none := by
  unfold spacesThenDigit
  rw [if_pos]
  cases cs with
  | nil => rfl
  | cons a t =>
    rw [List.takeWhile_cons, if_neg (by rw [h a (List.mem_cons_self a t)]; simp)]
    rfl

/-- On a string with no whitespace, the digit-space collapse is the
identity for any fuel. -/
theorem collapseAuxId (fuel : Nat) :
    ∀ l : List Char, (∀ c ∈ l, pyIsSpace c = false) → collapseAux fuel l = l := by
  induction fuel with
  | zero => intro l _; rfl
  | succ k ih =>
    intro l h
    cases l with
    | nil => rfl
    | cons c cs =>
      rw [collapseAux]
      have hcs : ∀ d ∈ cs, pyIsSpace d = false :=
        fun d hd => h d (List.mem_cons_of_mem c hd)
      by_cases hd : c.isDigit
      · rw [if_pos hd, noSpaceSpacesThenDigit hcs]
        exact congrArg (c :: ·) (ih cs hcs)
      · rw [if_neg hd]
        exact congrArg (c :: ·) (ih cs hcs)

/-- On a string with no whitespace, `collapseDigitSpaces` is the identity. -/
theorem collapseId {l : List Char} (h : ∀ c ∈ l, pyIsSpace c = false) :
    collapseDigitSpaces l = l :=
  collapseAuxId l.length l h

/-- `dropWhile` is the identity when no member satisfies the predicate. -/
theorem dropWhileIdOfNone {p : Char → Bool} {l : List Char}
    (h : ∀ c ∈ l, p c = false) : l.dropWhile p = l := by
  cases l with
  | nil => rfl
  | cons a t =>
    rw [List.dropWhile_cons, if_neg (by rw [h a (List.mem_cons_self a t)]; simp)]

/-- Stripping is the identity when the string has no whitespace at all. -/
theorem pyStripId {l : List Char} (h : ∀ c ∈ l, pyIsSpace c = false) :
    pyStrip l = l := by
  unfold pyStrip
  rw [dropWhileIdOfNone h, dropWhileIdOfNone
    (fun c hc => h c (List.mem_reverse.mp hc)), List.reverse_reverse]

/-- The `RM`-token removal is the identity when no character lowercases
to `r`. -/
theorem removeRMAuxId : ∀ l : List Char,
    (∀ c ∈ l, (c.toLower == 'r') = false) → ∀ prev, removeRMAux prev l = l := by
  intro l
  induction l with
  | nil => intro _ _; rfl
  | cons a t ih =>
    intro h prev
    cases t with
    | nil => rfl
    | cons b u =>
      rw [removeRMAux, if_neg (by rw [h a (List.mem_cons_self a (b :: u))]; simp)]
      exact congrArg (a :: ·)
        (ih (fun c hc => h c (List.mem_cons_of_mem a hc)) (some a))

/-- C9.  `clean_number_string` is idempotent. -/
theorem claim_c9_clean_idempotent (s : List Char) :
    cleanNumberString (cleanNumberString s) = cleanNumberString s := by
  have hfacts := fun c hc => digitDotMemFacts c (cleanMembers s c hc)
  set t := cleanNumberString s with ht
  by_cases hT : t.isEmpty
  · have : t = [] := by
      cases htc : t
      · rfl
      · rw [htc] at hT; exact absurd hT (by simp)
    rw [this]
    rfl
  · unfold cleanNumberString
    rw [if_neg hT]
    have h1 : collapseDigitSpaces t = t := collapseId (fun c hc => (hfacts c hc).1)
    rw [h1, h1]
    have h2 : removeCurrency t = t :=
      List.filter_eq_self.mpr (fun c hc => by rw [(hfacts c hc).2.1]; rfl)
    rw [h2]
    have h3 : removeRM t = t :=
      removeRMAuxId t (fun c hc => (hfacts c hc).2.2.1) none
    rw [h3]
    have h4 : removeCommas t = t :=
      List.filter_eq_self.mpr (fun c hc => by rw [(hfacts c hc).2.2.2]; rfl)
    rw [h4]
    have h5 : keepDigitsDots t = t :=
      List.filter_eq_self.mpr (fun c hc => cleanMembers s c hc)
    rw [h5]
    exact pyStripId (fun c hc => (hfacts c hc).1)

/-- `splitWhen` always yields at least one piece. -/
theorem splitWhenNeNil {p : Char → Bool} {cs : List Char} :
    splitWhen p cs ≠ [] := by
  cases cs with
  | nil => rw [splitWhen]; simp
  | cons c cs2 =>
    rw [splitWhen]
    split
    · simp
    · cases h : splitWhen p cs2 <;> simp

/-- Every non-separator character of the input occurs in some piece of
`splitWhen`. -/
theorem splitWhenComplete {p : Char → Bool} {cs : List Char} {c : Char}
    (hc : c ∈ cs) (hp : p c = false) :
    ∃ piece ∈ splitWhen p cs, c ∈ piece := by
  induction cs with
  | nil => exact absurd hc (List.not_mem_nil c)
  | cons d ds ih =>
    rw [splitWhen]
    split
    · rename_i hd
      rcases List.mem_cons.mp hc with hcd | hcds
      · subst hcd; rw [hp] at hd; exact absurd hd (by simp)
      · obtain ⟨piece, hmem, hcp⟩ := ih hcds
        exact ⟨piece, List.mem_cons_of_mem [] hmem, hcp⟩
    · cases hsp : splitWhen p ds with
      | nil => exact absurd hsp splitWhenNeNil
      | cons l ls =>
        rcases List.mem_cons.mp hc with hcd | hcds
        · subst hcd
          exact ⟨c :: l, List.mem_cons_self (c :: l) ls, List.mem_cons_self c l⟩
        · obtain ⟨piece, hmem, hcp⟩ := ih hcds
          rw [hsp] at hmem
          rcases List.mem_cons.mp hmem with hpl | hpls
          · subst hpl
            exact ⟨d :: piece, List.mem_cons_self (d :: piece) ls,
              List.mem_cons_of_mem d hcp⟩
          · exact ⟨piece, List.mem_cons_of_mem (d :: l) hpls, hcp⟩

/-- A member failing the predicate survives `dropWhile`. -/
theorem memDropWhileOfNot {p : Char → Bool} {l : List Char} {c : Char}
    (hc : c ∈ l) (hp : p c = false) : c ∈ l.dropWhile p := by
  induction l with
  | nil => exact absurd hc (List.not_mem_nil c)
  | cons a t ih =>
    rw [List.dropWhile_cons]
    split
    · rename_i ha
      rcases List.mem_cons.mp hc with hca | hct
      · subst hca; rw [hp] at ha; exact absurd ha (by simp)
      · exact ih hct
    · exact hc

/-- A non-whitespace member survives stripping. -/
theorem memPyStripOfNotWs {l : List Char} {c : Char} (hc : c ∈ l)
    (hp : pyIsSpace c = false) : c ∈ pyStrip l := by
  unfold pyStrip
  rw [List.mem_reverse]
  exact memDropWhileOfNot (List.mem_reverse.mpr
    (memDropWhileOfNot hc hp)) hp

/-- A non-whitespace character is not a newline. -/
theorem notNewlineOfNotWs {c : Char} (hp : pyIsSpace c = false) :
    isNewlineChar c = false := by
  unfold pyIsSpace at hp
  unfold isNewlineChar
  rcases Bool.or_eq_false_iff.mp hp with ⟨h1, h2⟩
  rcases Bool.or_eq_false_iff.mp h1 with ⟨h3, h4⟩
  rcases Bool.or_eq_false_iff.mp h3 with ⟨h5, h6⟩
  rcases Bool.or_eq_false_iff.mp h5 with ⟨h7, h8⟩
  rcases Bool.or_eq_false_iff.mp h7 with ⟨h9, h10⟩
  rw [h8, h6]
  rfl

/-- A digit character is not whitespace. -/
theorem digitNotWs {c : Char} (hd : c.isDigit = true) : pyIsSpace c = false :=
  (digitDotMemFacts c (by rw [hd]; rfl)).1

/-- A text containing a digit splits into at least one non-empty line. -/
theorem digitInTextLines {cs : List Char} {c : Char} (hc : c ∈ cs)
    (hd : c.isDigit = true) : linesOf cs ≠ [] := by
  have hws := digitNotWs hd
  obtain ⟨piece, hpiece, hcp⟩ := splitWhenComplete hc (notNewlineOfNotWs hws)
  have hmemLine : pyStrip piece ∈ (splitWhen isNewlineChar cs).map pyStrip :=
    List.mem_map_of_mem pyStrip hpiece
  have hcstrip : c ∈ pyStrip piece := memPyStripOfNotWs hcp hws
  have hne : (pyStrip piece).isEmpty = false := by
    cases hsp : pyStrip piece
    · rw [hsp] at hcstrip; exact absurd hcstrip (List.not_mem_nil c)
    · rfl
  apply List.ne_nil_of_mem (a := pyStrip piece)
  unfold linesOf
  rw [List.mem_filter]
  exact ⟨hmemLine, by rw [hne]; rfl⟩

/-- A successful float parse requires at least one digit in the string. -/
theorem pyFloatDigit {s : List Char} {v : ℚ} (h : pyFloat? s = some v) :
    ∃ c ∈ s, c.isDigit = true := by
  unfold pyFloat? at h
  split at h
  · rename_i hdrop
    split at h
    · exact absurd h (by simp)
    · rename_i hne
      cases hint : s.takeWhile Char.isDigit with
      | nil => rw [hint] at hne; exact absurd (rfl : ([] : List Char).isEmpty = true) hne
      | cons c t =>
        refine ⟨c, ?_, ?_⟩
        · exact (s.takeWhile_prefix Char.isDigit).subset
            (by rw [hint]; exact List.mem_cons_self c t)
        · exact List.mem_takeWhile_imp (by rw [hint]; exact List.mem_cons_self c t)
  · rename_i fracPart hdrop
    split at h
    · rename_i hfrac
      split at h
      · exact absurd h (by simp)
      · rename_i hboth
        rw [Bool.and_eq_true] at hboth
        by_cases hint : (s.takeWhile Char.isDigit).isEmpty
        · have hfne : fracPart ≠ [] := by
            intro hcon
            exact hboth ⟨hint, by rw [hcon]; rfl⟩
          cases hfc : fracPart with
          | nil => exact absurd hfc hfne
          | cons c t =>
            refine ⟨c, ?_, ?_⟩
            · have : c ∈ s.dropWhile Char.isDigit := by
                rw [hdrop, hfc]
                exact List.mem_cons_of_mem '.' (List.mem_cons_self c t)
              exact memDropWhile this
            · have := List.all_eq_true.mp hfrac c
                (by rw [hfc]; exact List.mem_cons_self c t)
              simpa using this
        · cases hic : s.takeWhile Char.isDigit with
          | nil => rw [hic] at hint; exact absurd (rfl : ([] : List Char).isEmpty = true) hint
          | cons c t =>
            refine ⟨c, ?_, ?_⟩
            · exact (s.takeWhile_prefix Char.isDigit).subset
                (by rw [hic]; exact List.mem_cons_self c t)
            · exact List.mem_takeWhile_imp (by rw [hic]; exact List.mem_cons_self c t)
    · exact absurd h (by simp)
  · exact absurd h (by simp)

/-- `getD` at an index below the length is a member. -/
theorem getDMem {l : List (List Char)} {n : Nat} (h : n < l.length) :
    l.getD n [] ∈ l := by
  rw [List.getD_eq_getElem l [] h]
  exact l.getElem_mem h

/-- A digit character of the dot-repaired string occurs in the original. -/
theorem truncDotsDigitMem {l : List Char} {c : Char} (hc : c ∈ truncDots l)
    (hd : c.isDigit = true) : c ∈ l := by
  unfold truncDots at hc
  split at hc
  · rename_i hlen
    rcases List.mem_append.mp hc with h0 | h1
    · refine memSplitWhen (p := fun ch => ch == '.') ?_ h0
      exact getDMem (by omega)
    · rcases List.mem_cons.mp h1 with hdot | h2
      · subst hdot; exact absurd hd (by decide)
      · refine memSplitWhen (p := fun ch => ch == '.') ?_ h2
        exact getDMem (by omega)
  · exact hc

/-- The space-then-digit probe yields a digit and a tail from the input. -/
theorem spacesThenDigitSub {cs : List Char} {d : Char} {rest : List Char}
    (h : spacesThenDigit cs = some (d, rest)) :
    d ∈ cs ∧ ∀ c ∈ rest, c ∈ cs := by
  unfold spacesThenDigit at h
  split at h
  · exact absurd h (by simp)
  · split at h
    · exact absurd h (by simp)
    · rename_i d0 rest0 heq
      split at h
      · simp only [Option.some.injEq, Prod.mk.injEq] at h
        obtain ⟨h1, h2⟩ := h
        rw [h1, h2] at heq
        constructor
        · exact memDropWhile (by rw [heq]; exact List.mem_cons_self d rest)
        · intro c hc
          exact memDropWhile (by rw [heq]; exact List.mem_cons_of_mem d hc)
      · exact absurd h (by simp)

/-- Characters of the digit-space collapse are characters of the input. -/
theorem collapseAuxSub (fuel : Nat) :
    ∀ (l : List Char) (c : Char), c ∈ collapseAux fuel l → c ∈ l := by
  induction fuel with
  | zero => intro l c hc; exact hc
  | succ k ih =>
    intro l c hc
    cases l with
    | nil => exact hc
    | cons a cs =>
      rw [collapseAux] at hc
      split at hc
      · cases hsp : spacesThenDigit cs with
        | some p =>
          obtain ⟨d, rest⟩ := p
          rw [hsp] at hc
          obtain ⟨hdm, hrest⟩ := spacesThenDigitSub hsp
          rcases List.mem_cons.mp hc with h1 | h2
          · subst h1; exact List.mem_cons_self c cs
          · rcases List.mem_cons.mp h2 with h3 | h4
            · subst h3; exact List.mem_cons_of_mem a hdm
            · exact List.mem_cons_of_mem a (hrest c (ih rest c h4))
        | none =>
          rw [hsp] at hc
          rcases List.mem_cons.mp hc with h1 | h2
          · subst h1; exact List.mem_cons_self c cs
          · exact List.mem_cons_of_mem a (ih cs c h2)
      · rcases List.mem_cons.mp hc with h1 | h2
        · subst h1; exact List.mem_cons_self c cs
        · exact List.mem_cons_of_mem a (ih cs c h2)

/-- Characters of the `RM` removal are characters of the input (stated with
an explicit length bound for the strong induction). -/
theorem removeRMAuxSubLen : ∀ (n : Nat) (l : List Char), l.length ≤ n →
    ∀ (prev : Option Char) (c : Char), c ∈ removeRMAux prev l → c ∈ l := by
  intro n
  induction n with
  | zero =>
    intro l hl prev c hc
    have : l = [] := List.length_eq_zero.mp (Nat.le_zero.mp hl)
    subst this
    exact hc
  | succ k ih =>
    intro l hl prev c hc
    cases l with
    | nil => exact hc
    | cons a t =>
      cases t with
      | nil => exact hc
      | cons b u =>
        rw [removeRMAux] at hc
        simp only [List.length_cons] at hl
        split at hc
        · have := ih u (by omega) (some b) c hc
          exact List.mem_cons_of_mem a (List.mem_cons_of_mem b this)
        · rcases List.mem_cons.mp hc with h1 | h2
          · subst h1; exact List.mem_cons_self c (b :: u)
          · exact List.mem_cons_of_mem a (ih (b :: u) (by simp only [List.length_cons]; omega) (some a) c h2)

/-- Characters of the `RM` removal are characters of the input. -/
theorem removeRMAuxSub (l : List Char) (prev : Option Char) (c : Char)
    (hc : c ∈ removeRMAux prev l) : c ∈ l :=
  removeRMAuxSubLen l.length l le_rfl prev c hc

/-- Characters of the cleaned string are characters of the input. -/
theorem cleanCharsSub {s : List Char} {c : Char}
    (hc : c ∈ cleanNumberString s) : c ∈ s := by
  unfold cleanNumberString at hc
  split at hc
  · exact absurd hc (List.not_mem_nil c)
  · have h1 := memPyStrip hc
    have h2 := (List.mem_filter.mp h1).1
    have h3 := (List.mem_filter.mp h2).1
    have h4 := removeRMAuxSub _ none c h3
    have h5 := (List.mem_filter.mp h4).1
    have h6 := collapseAuxSub _ _ c h5
    exact collapseAuxSub _ _ c h6

/-- A successfully parsed amount string contains a digit. -/
theorem parseAmtDigit {m : List Char} {v : ℚ} (h : parseAmt m = some v) :
    ∃ c ∈ m, c.isDigit = true := by
  unfold parseAmt at h
  split at h
  · exact absurd h (by simp)
  · cases hf : pyFloat? (truncDots (cleanNumberString m)) with
    | none => rw [hf] at h; exact absurd h (by simp)
    | some w =>
      obtain ⟨c, hcm, hcd⟩ := pyFloatDigit hf
      exact ⟨c, cleanCharsSub (truncDotsDigitMem hcm hcd), hcd⟩

theorem orElseSome {α : Type} (m1 : α) (f : Unit → Option α) :
    (some m1).orElse f = some m1 := rfl

theorem orElseNone {α : Type} (f : Unit → Option α) :
    (none : Option α).orElse f = f () := rfl

theorem headMemOfEq {α : Type} {l : List α} {a : α} (h : l.head? = some a) :
    a ∈ l := by
  cases l with
  | nil => exact absurd h (by simp)
  | cons x xs =>
    rw [List.head?_cons, Option.some.injEq] at h
    rw [← h]
    exact List.mem_cons_self x xs

/-- Every matcher result leaves a suffix of the input unconsumed, and every
capture consists of input characters. -/
theorem reMatchesSpec : ∀ (fuel : Nat) (re : RE) (prev : Option Char)
    (inp : List Char) (res : Option Char × List Char × Option (List Char)),
    res ∈ reMatches fuel re prev inp →
    res.2.1.IsSuffix inp ∧ ∀ m, res.2.2 = some m → ∀ c ∈ m, c ∈ inp := by
  intro fuel
  induction fuel with
  | zero => intro re prev inp res h; exact absurd h (List.not_mem_nil res)
  | succ k ih =>
    intro re prev inp res h
    cases re with
    | eps =>
      simp only [reMatches, List.mem_singleton] at h
      subst h
      exact ⟨List.suffix_refl inp, fun m hm => absurd hm (by simp)⟩
    | pred p =>
      cases inp with
      | nil =>
        simp only [reMatches] at h
        exact absurd h (List.not_mem_nil res)
      | cons c rest =>
        simp only [reMatches] at h
        split at h
        · simp only [List.mem_singleton] at h
          subst h
          exact ⟨List.suffix_cons c rest, fun m hm => absurd hm (by simp)⟩
        · exact absurd h (List.not_mem_nil res)
    | wb =>
      simp only [reMatches] at h
      split at h
      · simp only [List.mem_singleton] at h
        subst h
        exact ⟨List.suffix_refl inp, fun m hm => absurd hm (by simp)⟩
      · exact absurd h (List.not_mem_nil res)
    | cat r1 r2 =>
      simp only [reMatches] at h
      rw [List.mem_bind] at h
      obtain ⟨a, ha, hres⟩ := h
      rw [List.mem_map] at hres
      obtain ⟨b, hb, hres2⟩ := hres
      obtain ⟨hsuf1, hcap1⟩ := ih r1 prev inp a ha
      obtain ⟨hsuf2, hcap2⟩ := ih r2 a.1 a.2.1 b hb
      subst hres2
      refine ⟨hsuf2.trans hsuf1, ?_⟩
      intro m hm
      cases hc1 : a.2.2 with
      | some m1 =>
        rw [hc1, orElseSome] at hm
        simp only [Option.some.injEq] at hm
        subst hm
        exact hcap1 m1 hc1
      | none =>
        rw [hc1, orElseNone] at hm
        intro c hc
        exact hsuf1.subset (hcap2 m hm c hc)
    | opt r =>
      simp only [reMatches] at h
      rcases List.mem_append.mp h with h1 | h2
      · exact ih r prev inp res h1
      · simp only [List.mem_singleton] at h2
        subst h2
        exact ⟨List.suffix_refl inp, fun m hm => absurd hm (by simp)⟩
    | group r =>
      simp only [reMatches] at h
      rw [List.mem_map] at h
      obtain ⟨a, ha, hres⟩ := h
      obtain ⟨hsuf, _⟩ := ih r prev inp a ha
      subst hres
      refine ⟨hsuf, ?_⟩
      intro m hm
      simp only [Option.some.injEq] at hm
      subst hm
      intro c hc
      exact List.take_subset _ _ hc
    | star r =>
      simp only [reMatches] at h
      rcases List.mem_append.mp h with h1 | h2
      · rw [List.mem_bind] at h1
        obtain ⟨a, ha, hres⟩ := h1
        split at hres
        · rw [List.mem_map] at hres
          obtain ⟨b, hb, hres2⟩ := hres
          obtain ⟨hsuf1, hcap1⟩ := ih r prev inp a ha
          obtain ⟨hsuf2, hcap2⟩ := ih (RE.star r) a.1 a.2.1 b hb
          subst hres2
          refine ⟨hsuf2.trans hsuf1, ?_⟩
          intro m hm
          cases hc1 : a.2.2 with
          | some m1 =>
            rw [hc1, orElseSome] at hm
            simp only [Option.some.injEq] at hm
            subst hm
            exact hcap1 m1 hc1
          | none =>
            rw [hc1, orElseNone] at hm
            intro c hc
            exact hsuf1.subset (hcap2 m hm c hc)
        · exact absurd hres (List.not_mem_nil res)
      · simp only [List.mem_singleton] at h2
        subst h2
        exact ⟨List.suffix_refl inp, fun m hm => absurd hm (by simp)⟩

/-- Unfolding equation for the successor case of `findallAux`. -/
theorem findallAuxSucc (fuel : Nat) (r : RE) (prev : Option Char)
    (inp : List Char) :
    findallAux (fuel + 1) r prev inp =
      match (reMatches (reFuel r inp) r prev inp).head? with
      | some (p1, rest, cap) =>
        if rest.length < inp.length then
          cap.getD (inp.take (inp.length - rest.length)) :: findallAux fuel r p1 rest
        else
          match inp with
          | [] => [cap.getD (inp.take (inp.length - rest.length))]
          | c :: cs =>
            cap.getD (inp.take (inp.length - rest.length)) :: findallAux fuel r (some c) cs
      | none =>
        match inp with
        | [] => []
        | c :: cs => findallAux fuel r (some c) cs := rfl

/-- Every string emitted by the `findall` scan consists of input
characters. -/
theorem findallAuxSub : ∀ (fuel : Nat) (re : RE) (prev : Option Char)
    (inp : List Char) (m : List Char), m ∈ findallAux fuel re prev inp →
    ∀ c ∈ m, c ∈ inp := by
  intro fuel
  induction fuel with
  | zero => intro re prev inp m h; exact absurd h (List.not_mem_nil m)
  | succ k ih =>
    intro re prev inp m h
    rw [findallAuxSucc] at h
    split at h
    · rename_i p1 rest cap hh
      obtain ⟨hsuf, hcap⟩ := reMatchesSpec _ _ _ _ _ (headMemOfEq hh)
      have hcapv : ∀ c ∈ cap.getD (inp.take (inp.length - rest.length)), c ∈ inp := by
        cases cap with
        | none =>
          intro c hc2
          rw [Option.getD_none] at hc2
          exact List.take_subset _ _ hc2
        | some mc =>
          intro c hc2
          rw [Option.getD_some] at hc2
          exact hcap mc rfl c hc2
      split at h
      · rcases List.mem_cons.mp h with h1 | h2
        · subst h1; exact hcapv
        · intro c hc
          exact hsuf.subset (ih re p1 rest m h2 c hc)
      · cases inp with
        | nil =>
          have h2 := List.mem_singleton.mp h
          subst h2
          exact hcapv
        | cons a cs =>
          rcases List.mem_cons.mp h with h1 | h2
          · subst h1; exact hcapv
          · intro c hc
            exact List.mem_cons_of_mem a (ih re (some a) cs m h2 c hc)
    · cases inp with
      | nil => exact absurd h (List.not_mem_nil m)
      | cons a cs =>
        intro c hc
        exact List.mem_cons_of_mem a (ih re (some a) cs m h c hc)

/-- Every string returned by `refindall` consists of input characters. -/
theorem refindallSub {re : RE} {s m : List Char} (h : m ∈ refindall re s) :
    ∀ c ∈ m, c ∈ s :=
  findallAuxSub (s.length + 1) re none s m h

/-- C6.  Strategy 1 (`phase1`) tries the direct patterns in their stated
order, walks each pattern's matches in reverse, and accepts the first
cleaned-and-parsed value in `[0.01, 50000]`; whenever it accepts a value,
the resolver returns exactly that value — no later pattern or phase is
consulted. -/
theorem claim_c6_phase1 (text : String) (v : ℚ)
    (h : phase1 text.data = some v) :
    findTotalAmount text = some v ∧ 1/100 ≤ v ∧ v ≤ 50000 := by
  obtain ⟨hrange, pat, hpat, m, hm, hparse⟩ := phase1Spec h
  obtain ⟨c, hcm, hcd⟩ := parseAmtDigit hparse
  have hctext : c ∈ text.data := refindallSub hm c hcm
  have hlines : linesOf text.data ≠ [] := digitInTextLines hctext hcd
  have hempty : (linesOf text.data).isEmpty = false := by
    cases hl : linesOf text.data
    · exact absurd hl hlines
    · rfl
  refine ⟨?_, hrange⟩
  unfold findTotalAmount
  rw [if_neg (by rw [hempty]; simp), h]

/-- Witness for C6 at `"TOTAL: $14.84"`, accepted by the second direct
pattern. -/
theorem claim_c6_phase1_witness :
    findTotalAmount "TOTAL: $14.84" = some (371/25) ∧
      1/100 ≤ (371/25 : ℚ) ∧ (371/25 : ℚ) ≤ 50000 :=
  claim_c6_phase1 "TOTAL: $14.84" (371/25) (by with_unfolding_all decide)

/-- C7 counterexample.  The line `"Cash Tendered: $50.00 Change: $5.16"`
carries exclude keywords, yet it is the source of the amount Strategy 2
returns for the input `"Total:\nCash Tendered: $50.00 Change: $5.16"`:
Strategy 1 fails, Strategy 2 itself succeeds with 50, the `"Total:"` line
has no extractable amount of its own, and the excluded line's extraction is
exactly 50 — so Strategy 2's next-line fallback read the amount off the
excluded line, refuting the claim that this line is never the source of the
returned amount in Phase 2 or Phase 3. -/
theorem claim_c7_counterexample :
    findTotalAmount "Total:\nCash Tendered: $50.00 Change: $5.16" = some 50 ∧
      phase1 "Total:\nCash Tendered: $50.00 Change: $5.16".data = none ∧
      phase2 (linesOf "Total:\nCash Tendered: $50.00 Change: $5.16".data) =
        some 50 ∧
      extractAmountFromLine "Total:".data = none ∧
      extractAmountFromLine "Cash Tendered: $50.00 Change: $5.16".data =
        some 50 ∧
      infixOfB "cash tendered".data
        (lineLower "Cash Tendered: $50.00 Change: $5.16".data) = true ∧
      "cash tendered".data ∈ excludeLineKeywords := by
  refine ⟨?_, ?_, ?_, ?_, ?_, ?_, ?_⟩
  · with_unfolding_all decide
  · with_unfolding_all decide
  · with_unfolding_all decide
  · with_unfolding_all decide
  · with_unfolding_all decide
  · with_unfolding_all decide
  · with_unfolding_all decide

/-- C7 amended.  When Strategies 1 and 2 fail and Strategy 3 succeeds, the
resolver returns Strategy 3's value, which is the largest amount collected
from the last 24 lines — where a line is scanned only if it avoids the
Strategy-3 skip list (`skip_keywords` plus `change`, `cash` and
`gst summary`, a narrower list than Strategy 2's exclusions), and each
collected amount is the line's extracted maximum within `[1.0, 50000]`. -/
theorem claim_c7_phase3 (text : String) (v : ℚ)
    (h1 : phase1 text.data = none) (h2 : phase2 (linesOf text.data) = none)
    (h3 : phase3 (linesOf text.data) = some v) :
    findTotalAmount text = some v ∧
      (∃ i, (v, i) ∈ phase3Pairs (linesOf text.data)) ∧
      (∀ a i, (a, i) ∈ phase3Pairs (linesOf text.data) → a ≤ v) ∧
      (∀ a i, (a, i) ∈ phase3Pairs (linesOf text.data) →
        (1 ≤ a ∧ a ≤ 50000) ∧
          (linesOf text.data).length - 24 ≤ i ∧ i < (linesOf text.data).length ∧
          containsKeyword phase3SkipKeywords
            (lineLower ((linesOf text.data).getD i [])) = false ∧
          extractAmountFromLine ((linesOf text.data).getD i []) = some a) := by
  obtain ⟨⟨j, hj⟩, hmax⟩ := phase3Spec h3
  have hlines : linesOf text.data ≠ [] := by
    intro hcon
    have hlt := (phase3PairsSpec hj).2.2.1
    rw [hcon] at hlt
    exact absurd hlt (by simp)
  have hempty : (linesOf text.data).isEmpty = false := by
    cases hl : linesOf text.data
    · exact absurd hl hlines
    · rfl
  refine ⟨?_, ⟨j, hj⟩, hmax, fun a i hai => phase3PairsSpec hai⟩
  unfold findTotalAmount
  rw [if_neg (by rw [hempty]; simp), h1, h2, h3]

/-- Witness for C7 (amended) at `"hello\nfoo 9.99"`, which reaches
Strategy 3 and returns the bottom-region maximum 9.99. -/
theorem claim_c7_phase3_witness :
    findTotalAmount "hello\nfoo 9.99" = some (999/100) :=
  (claim_c7_phase3 "hello\nfoo 9.99" (999/100)
    (by with_unfolding_all decide) (by with_unfolding_all decide)
    (by with_unfolding_all decide)).1
